import Mathlib

/-!
Verification development for the DriveGuard AI dashcam-analysis pipeline
(`backend/analysis/main_v2.py`, `enhanced_proximity_detection.py`,
`enhanced_speed_detection.py`).

The Python code is shallowly embedded over exact rationals (`ℚ`): every
float computation of the source is rendered as the corresponding exact
rational computation, Python `round(x, n)` as round-half-to-even at `n`
decimal digits, `int(x)` of a nonnegative float as the floor, and
`float('inf')` sentinels as `Option` (`none` = infinite).
-/

namespace DriveGuard

/-- Python `round` at integer precision: round half to even (banker's
rounding), as CPython does for floats. -/
def pyRoundInt (x : ℚ) : ℤ :=
  if x - ⌊x⌋ < 1/2 then ⌊x⌋
  else if 1/2 < x - ⌊x⌋ then ⌊x⌋ + 1
  else if Even ⌊x⌋ then ⌊x⌋ else ⌊x⌋ + 1

/-- Python `round(x, 2)` over exact rationals. -/
def pyRound2 (x : ℚ) : ℚ := (pyRoundInt (100 * x) : ℚ) / 100

/-- Python `round(x, 3)` over exact rationals. -/
def pyRound3 (x : ℚ) : ℚ := (pyRoundInt (1000 * x) : ℚ) / 1000

theorem pyRoundInt_le_of_le {x y : ℚ} (h : x ≤ y) : pyRoundInt x ≤ pyRoundInt y := by
  rcases lt_or_eq_of_le (Int.floor_mono h) with hfl | hfe
  · -- floor strictly increases: left value is at most ⌊x⌋ + 1 ≤ ⌊y⌋
    have hx : pyRoundInt x ≤ ⌊x⌋ + 1 := by
      unfold pyRoundInt; split_ifs <;> omega
    have hy : ⌊y⌋ ≤ pyRoundInt y := by
      unfold pyRoundInt; split_ifs <;> omega
    omega
  · -- same floor: compare the fractional parts
    unfold pyRoundInt
    rw [← hfe]
    split_ifs <;> first | omega | linarith

theorem pyRound2_mono {x y : ℚ} (h : x ≤ y) : pyRound2 x ≤ pyRound2 y := by
  unfold pyRound2
  have hle := pyRoundInt_le_of_le (x := 100 * x) (y := 100 * y) (by linarith)
  have hle' : ((pyRoundInt (100 * x) : ℚ)) ≤ ((pyRoundInt (100 * y) : ℚ)) := by
    exact_mod_cast hle
  linarith

/-! ## Close-encounter events and the finalize/merge pass

Source: `main_v2.py`, `run_close_encounters`, lines 395–414.  An event is
the dict built by the hysteresis loop; `whereLoc` stands for the source's
`"where"` key (a Lean keyword). -/

/-- One close-encounter event record, as built by `run_close_encounters`. -/
structure Event where
  start_time : ℚ
  end_time : ℚ
  peak_time : ℚ
  peak_score : ℚ
  whereLoc : String
  max_box_height_norm : ℚ
  deriving Repr, DecidableEq

/-- `MERGE_GAP = 2.0` (seconds). -/
def MERGE_GAP : ℚ := 2

/-- Minimum-duration filter: `if (e["end_time"] - e["start_time"]) >= 0.2:
final.append(e)`. -/
def filterMinDuration (events : List Event) : List Event :=
  events.filter (fun e => 1/5 ≤ e.end_time - e.start_time)

/-- Merging one later event `e` into the running merged event `m`:
the peak attributes are replaced when `e.peak_score > m.peak_score`, and
the end time is always extended to `e`'s. -/
def mergeInto (m e : Event) : Event :=
  let m1 :=
    if m.peak_score < e.peak_score then
      { m with peak_score := e.peak_score, peak_time := e.peak_time,
               whereLoc := e.whereLoc,
               max_box_height_norm := e.max_box_height_norm }
    else m
  { m1 with end_time := e.end_time }

/-- Chronological merge scan with the current last merged event `cur`:
`if (e["start_time"] - merged[-1]["end_time"]) <= MERGE_GAP: ... else:
merged.append(e)`. -/
def mergeAux (cur : Event) : List Event → List Event
  | [] => [cur]
  | e :: rest =>
    if e.start_time - cur.end_time ≤ MERGE_GAP then
      mergeAux (mergeInto cur e) rest
    else
      cur :: mergeAux e rest

/-- The merge pass over the duration-filtered events. -/
def mergeEvents : List Event → List Event
  | [] => []
  | f :: rest => mergeAux f rest

/-- The whole finalize pass of `run_close_encounters`: drop events shorter
than 0.2 s, then merge events separated by at most `MERGE_GAP`. -/
def finalizeCE (events : List Event) : List Event :=
  mergeEvents (filterMinDuration events)

theorem mergeInto_end_time (m e : Event) : (mergeInto m e).end_time = e.end_time := by
  unfold mergeInto; split_ifs <;> rfl

theorem mergeInto_start_time (m e : Event) : (mergeInto m e).start_time = m.start_time := by
  unfold mergeInto; split_ifs <;> rfl

theorem mergeInto_peak_score (m e : Event) :
    (mergeInto m e).peak_score = max m.peak_score e.peak_score := by
  unfold mergeInto
  rcases lt_or_le m.peak_score e.peak_score with hlt | hle
  · rw [if_pos hlt, max_eq_right (le_of_lt hlt)]
  · rw [if_neg (not_lt.mpr hle), max_eq_left hle]

/-- C1: in the close-encounter finalize pass of `run_close_encounters`,
every finalized event of duration < 0.2 s is dropped by the filter, and a
kept event starting within `MERGE_GAP = 2.0` s of the previous kept
event's end is merged into it, the merged event ending at the later
event's end time, carrying the max of the two peak scores, and keeping
the attributes of whichever peak was higher. -/
theorem run_close_encounters_finalize_correct
    (events : List Event) (e1 e2 : Event)
    (h1 : 1/5 ≤ e1.end_time - e1.start_time)
    (h2 : 1/5 ≤ e2.end_time - e2.start_time)
    (hgap : e2.start_time - e1.end_time ≤ MERGE_GAP) :
    (∀ e ∈ filterMinDuration events, 1/5 ≤ e.end_time - e.start_time) ∧
    (∀ e ∈ events, e.end_time - e.start_time < 1/5 → e ∉ filterMinDuration events) ∧
    ∃ m, finalizeCE [e1, e2] = [m] ∧
      m.start_time = e1.start_time ∧
      m.end_time = e2.end_time ∧
      m.peak_score = max e1.peak_score e2.peak_score ∧
      (e1.peak_score < e2.peak_score →
        m.peak_time = e2.peak_time ∧ m.whereLoc = e2.whereLoc) ∧
      (e2.peak_score ≤ e1.peak_score →
        m.peak_time = e1.peak_time ∧ m.whereLoc = e1.whereLoc) := by
  refine ⟨?_, ?_, ?_⟩
  · intro e he
    unfold filterMinDuration at he
    exact of_decide_eq_true (List.mem_filter.mp he).2
  · intro e _ hdur hmem
    unfold filterMinDuration at hmem
    have := of_decide_eq_true (List.mem_filter.mp hmem).2
    linarith
  · refine ⟨mergeInto e1 e2, ?_, mergeInto_start_time e1 e2,
      mergeInto_end_time e1 e2, mergeInto_peak_score e1 e2, ?_, ?_⟩
    · unfold finalizeCE filterMinDuration
      rw [List.filter_cons_of_pos (by simpa using h1),
          List.filter_cons_of_pos (by simpa using h2), List.filter_nil]
      unfold mergeEvents mergeAux
      rw [if_pos hgap]
      rfl
    · intro hlt
      unfold mergeInto
      rw [if_pos hlt]
      exact ⟨rfl, rfl⟩
    · intro hle
      unfold mergeInto
      rw [if_neg (not_lt.mpr hle)]
      exact ⟨rfl, rfl⟩

/-- Witness for the C1 theorem on concrete events: a 1 s event at [0,1]
and a 1 s event at [2,3], separated by a 1 s gap. -/
theorem run_close_encounters_finalize_correct_witness :
    ((1:ℚ)/5 ≤ 1 - 0 ∧ (1:ℚ)/5 ≤ 3 - 2 ∧ (3:ℚ) - 1 ≤ MERGE_GAP) ∧
    ∃ m, finalizeCE [⟨0, 1, 1/2, 3/10, "center", 1/4⟩,
                     ⟨3, 4, 7/2, 1/2, "left", 3/10⟩] = [m] ∧
      m.start_time = 0 ∧ m.end_time = 4 ∧ m.peak_score = max (3/10) (1/2) := by
  refine ⟨⟨by norm_num, by norm_num, by norm_num [MERGE_GAP]⟩, ?_⟩
  obtain ⟨-, -, m, hm, hs, he, hp, -, -⟩ :=
    run_close_encounters_finalize_correct
      [⟨0, 1, 1/2, 3/10, "center", 1/4⟩, ⟨3, 4, 7/2, 1/2, "left", 3/10⟩]
      ⟨0, 1, 1/2, 3/10, "center", 1/4⟩ ⟨3, 4, 7/2, 1/2, "left", 3/10⟩
      (by norm_num) (by norm_num) (by norm_num [MERGE_GAP])
  exact ⟨m, hm, hs, he, hp⟩

/-! ## Enhanced proximity detector

Source: `enhanced_proximity_detection.py`, class `EnhancedProximityDetector`.
The frame width/height and focal length are calibration inputs of the
detector instance and appear here as explicit parameters.  The source's
0.20 minimum box-height ratio constant is rendered as
`MIN_BOX_HEIGHT_FRAC`. -/

/-- `DANGEROUS_DISTANCE_M = 15.0`. -/
def DANGEROUS_DISTANCE_M : ℚ := 15

/-- `CRITICAL_DISTANCE_M = 8.0`. -/
def CRITICAL_DISTANCE_M : ℚ := 8

/-- `TTC_THRESHOLD_SEC = 4.0`. -/
def TTC_THRESHOLD_SEC : ℚ := 4

/-- `MIN_TRACK_FRAMES = 5`. -/
def MIN_TRACK_FRAMES : ℕ := 5

/-- The 0.20 minimum box-height fraction of frame height. -/
def MIN_BOX_HEIGHT_FRAC : ℚ := 1/5

/-- A detected bounding box `(x1, y1, x2, y2)`, integer pixel
coordinates, y growing downwards. -/
structure Box where
  x1 : ℤ
  y1 : ℤ
  x2 : ℤ
  y2 : ℤ
  deriving Repr, DecidableEq

/-- The `real_heights` dict of `estimate_distance`, with its `.get(cls,
1.5)` default. -/
def real_heights (cls : String) : ℚ :=
  if cls = "car" then 3/2
  else if cls = "truck" then 3
  else if cls = "bus" then 7/2
  else if cls = "motorcycle" then 6/5
  else if cls = "bicycle" then 3/2
  else 3/2

/-- `np.clip(x, lo, hi)`. -/
def npClip (x lo hi : ℚ) : ℚ := min hi (max lo x)

/-- `EnhancedProximityDetector.estimate_distance`: pinhole-model distance
from box height, with the 1.5 perspective multiplier for boxes whose
vertical center is above the 45 % horizon line, clipped to [1, 100]. -/
def estimate_distance (height focal : ℚ) (box : Box) (cls : String) : ℚ :=
  let box_height_px : ℤ := box.y2 - box.y1
  if box_height_px ≤ 0 then 100
  else
    let real_height := real_heights cls
    let base := (real_height * focal) / (box_height_px : ℚ)
    let y_center : ℚ := ((box.y1 : ℚ) + (box.y2 : ℚ)) / 2
    let horizon_y := height * (45/100)
    let corrected := if y_center < horizon_y then base * (3/2) else base
    npClip corrected 1 100

/-- One entry of a track's `history` list. -/
structure TrackSample where
  time : ℚ
  distance : ℚ
  center_x : ℚ
  box_height : ℚ
  deriving Repr, DecidableEq

/-- `np.mean` over a list; 0 on the empty list. -/
def listMean (xs : List ℚ) : ℚ := xs.sum / xs.length

/-- Least-squares slope of `ys` against `xs`, as returned by
`np.polyfit(xs, ys, 1)[0]`. -/
def lsqSlope (xs ys : List ℚ) : ℚ :=
  let xbar := listMean xs
  let ybar := listMean ys
  let num := ((xs.zip ys).map (fun p => (p.1 - xbar) * (p.2 - ybar))).sum
  let den := (xs.map (fun x => (x - xbar) ^ 2)).sum
  num / den

/-- `EnhancedProximityDetector.calculate_ttc`; `none` renders the
source's `float('inf')` (not approaching / too little history). -/
def calculate_ttc (track_history : List TrackSample) : Option ℚ :=
  if track_history.length < 3 then none
  else
    let recent := track_history.drop (track_history.length - min 5 track_history.length)
    let distances := recent.map (·.distance)
    let times := recent.map (·.time)
    if times.length < 2 then none
    else
      let time_diffs := times.map (fun t => t - times.headD 0)
      if time_diffs.length < 2 then none
      else
        let slope := lsqSlope time_diffs distances
        if -(1/10) ≤ slope then none
        else some (distances.getLastD 0 / |slope|)

/-- `EnhancedProximityDetector.is_lateral_movement`. -/
def is_lateral_movement (width : ℚ) (track_history : List TrackSample) : Bool :=
  if track_history.length < 3 then false
  else
    let recent := track_history.drop (track_history.length - min 5 track_history.length)
    let x_positions := recent.map (·.center_x)
    decide (width * (3/10) < |x_positions.getLastD 0 - x_positions.headD 0|)

/-- The C3 claim's description of the TTC computation, written from the
spec's words for comparison with `calculate_ttc`: current (most recent)
distance over the absolute slope of a linear fit of distance against raw
time over the last up-to-5 samples; infinite when the slope is ≥ −0.1 or
the history has fewer than 3 samples. -/
def ttc_spec (track_history : List TrackSample) : Option ℚ :=
  if track_history.length < 3 then none
  else
    let recent := track_history.drop (track_history.length - 5)
    let slope := lsqSlope (recent.map (·.time)) (recent.map (·.distance))
    if -(1/10) ≤ slope then none
    else
      match track_history.getLast? with
      | some s => some (s.distance / |slope|)
      | none => none

/-- Whether an optional TTC (with `none` = infinite) is below a finite
threshold; `inf < c` is false in Python. -/
def ttcBelow (o : Option ℚ) (c : ℚ) : Prop :=
  match o with
  | some t => t < c
  | none => False

instance (o : Option ℚ) (c : ℚ) : Decidable (ttcBelow o c) := by
  unfold ttcBelow; cases o <;> infer_instance

/-- Per-track state of `detect_encounters`; peak fields are absent
(`none`) until the first danger update, `ttcStored` renders the stored
`'ttc'` key (where `inf` is replaced by 0 at store time). -/
structure TrackState where
  history : List TrackSample
  min_distance : Option ℚ
  max_danger_score : ℚ
  is_dangerous : Bool
  peak_time : Option ℚ
  peak_distance : Option ℚ
  ttcStored : Option ℚ
  deriving Repr, DecidableEq

/-- Initial entry of the `vehicle_tracks` defaultdict. -/
def initTrackState : TrackState :=
  { history := [], min_distance := none, max_danger_score := 0,
    is_dangerous := false, peak_time := none, peak_distance := none,
    ttcStored := none }

/-- One per-frame update of a track inside the `detect_encounters` loop:
append the sample, update the minimum distance, and — once the history
has `MIN_TRACK_FRAMES` samples — evaluate the danger criteria and record
the peak when the danger score improves. -/
def trackStep (width height : ℚ) (st : TrackState) (s : TrackSample) : TrackState :=
  let history := st.history ++ [s]
  let min_distance : Option ℚ :=
    match st.min_distance with
    | none => some s.distance
    | some d => if s.distance < d then some s.distance else some d
  let st1 := { st with history := history, min_distance := min_distance }
  if history.length < MIN_TRACK_FRAMES then st1
  else
    let ttc := calculate_ttc history
    let is_lateral := is_lateral_movement width history
    let is_frontal := width * (3/10) < s.center_x ∧ s.center_x < width * (7/10)
    let is_close := s.distance < DANGEROUS_DISTANCE_M
    let is_critical := s.distance < CRITICAL_DISTANCE_M
    let is_approaching := ttcBelow ttc TTC_THRESHOLD_SEC
    if is_close ∧ is_frontal ∧ (is_approaching ∨ is_critical) ∧ is_lateral = false then
      let distance_factor := 1 / max s.distance (1/2)
      let ttc_factor : ℚ :=
        match ttc with
        | some t => 1 / max t (1/2)
        | none => 1/2
      let box_factor := s.box_height / height
      let danger_score := distance_factor * (1/2) + ttc_factor * (3/10) + box_factor * (1/5)
      if st1.max_danger_score < danger_score then
        { st1 with max_danger_score := danger_score, is_dangerous := true,
                   peak_time := some s.time, peak_distance := some s.distance,
                   ttcStored := some (match ttc with | some t => t | none => 0) }
      else st1
    else st1

/-- A whole track's scan: the samples a tracked identity contributes, in
frame order. -/
def runTrack (width height : ℚ) (samples : List TrackSample) : TrackState :=
  samples.foldl (trackStep width height) initTrackState

/-- Finalization of one dangerous track into a close-encounter event
(`detect_encounters`, conversion loop); the event's extra debug keys
(`min_distance_m`, `ttc_sec`) are not part of the `Event` record. -/
def encounterOf (width height : ℚ) (st : TrackState) : Option Event :=
  if st.is_dangerous = false then none
  else if st.history.length < MIN_TRACK_FRAMES then none
  else
    let avg_x := listMean (st.history.map (·.center_x))
    let location : String :=
      if avg_x < width * (33/100) then "left"
      else if width * (67/100) < avg_x then "right"
      else "center"
    let peak_score := min st.max_danger_score 1
    let firstTime := (st.history.headD ⟨0, 0, 0, 0⟩).time
    let lastTime := (st.history.getLastD ⟨0, 0, 0, 0⟩).time
    some
      { start_time := pyRound2 firstTime,
        end_time := pyRound2 lastTime,
        peak_time := pyRound2 (st.peak_time.getD firstTime),
        peak_score := pyRound3 peak_score,
        whereLoc := location,
        max_box_height_norm :=
          pyRound3 (((st.history.map (·.box_height)).max?.getD 0) / height) }

theorem npClip_bounds (x lo hi : ℚ) (h : lo ≤ hi) :
    lo ≤ npClip x lo hi ∧ npClip x lo hi ≤ hi :=
  ⟨le_min h (le_max_left lo x), min_le_left hi _⟩

/-- C4: for every detected box, `estimate_distance` equals
`(real_world_height * focal) / box_height_px`, times 1.5 when the box's
vertical center is above the 45 % horizon line, clamped to [1, 100]; and
every returned distance lies in [1, 100]. -/
theorem estimate_distance_formula_and_range
    (height focal : ℚ) (box : Box) (cls : String)
    (hbox : box.y1 < box.y2) :
    estimate_distance height focal box cls =
      npClip
        (if ((box.y1 : ℚ) + (box.y2 : ℚ)) / 2 < height * (45/100)
         then (real_heights cls * focal) / ((box.y2 - box.y1 : ℤ) : ℚ) * (3/2)
         else (real_heights cls * focal) / ((box.y2 - box.y1 : ℤ) : ℚ)) 1 100 ∧
    (∀ b : Box, ∀ c : String,
      1 ≤ estimate_distance height focal b c ∧
        estimate_distance height focal b c ≤ 100) := by
  constructor
  · simp only [estimate_distance]
    rw [if_neg (by omega : ¬ box.y2 - box.y1 ≤ 0)]
  · intro b c
    simp only [estimate_distance]
    split_ifs
    · norm_num
    · exact npClip_bounds _ 1 100 (by norm_num)
    · exact npClip_bounds _ 1 100 (by norm_num)

/-- Witness for the C4 theorem: a 200-px-high car box centered at row
200 in a 720-px frame (above the 324-px horizon), focal length 640. -/
theorem estimate_distance_formula_and_range_witness :
    ((100 : ℤ) < 300) ∧
    (estimate_distance 720 640 ⟨0, 100, 50, 300⟩ "car" =
      npClip
        (if ((100 : ℚ) + (300 : ℚ)) / 2 < 720 * (45/100)
         then (real_heights "car" * 640) / (((300 : ℤ) - (100 : ℤ) : ℤ) : ℚ) * (3/2)
         else (real_heights "car" * 640) / (((300 : ℤ) - (100 : ℤ) : ℤ) : ℚ)) 1 100) ∧
    (1 ≤ estimate_distance 720 640 ⟨0, 100, 50, 300⟩ "car" ∧
      estimate_distance 720 640 ⟨0, 100, 50, 300⟩ "car" ≤ 100) := by
  have h := estimate_distance_formula_and_range 720 640 ⟨0, 100, 50, 300⟩ "car"
    (by norm_num)
  exact ⟨by norm_num, h.1, h.2 ⟨0, 100, 50, 300⟩ "car"⟩

theorem sum_map_sub_const (xs : List ℚ) (c : ℚ) :
    (xs.map (fun x => x - c)).sum = xs.sum - xs.length * c := by
  induction xs with
  | nil => simp
  | cons a t ih =>
    simp only [List.map_cons, List.sum_cons, List.length_cons, ih]
    push_cast
    ring

theorem listMean_map_sub (xs : List ℚ) (c : ℚ) (h : xs ≠ []) :
    listMean (xs.map (fun x => x - c)) = listMean xs - c := by
  unfold listMean
  rw [List.length_map, sum_map_sub_const]
  have hn : (xs.length : ℚ) ≠ 0 := by
    have := List.length_pos.mpr h
    positivity
  field_simp

/-- Translation invariance of the least-squares slope in the abscissa:
shifting all x-values by a constant leaves the fitted slope unchanged. -/
theorem lsqSlope_map_sub (xs ys : List ℚ) (c : ℚ) :
    lsqSlope (xs.map (fun x => x - c)) ys = lsqSlope xs ys := by
  rcases eq_or_ne xs [] with rfl | hne
  · rfl
  · simp only [lsqSlope]
    rw [listMean_map_sub xs c hne, List.zip_map_left, List.map_map, List.map_map]
    congr 2
    · apply List.map_congr_left
      intro p _
      cases p with
      | mk a b =>
        simp only [Function.comp_apply, Prod.map_apply, id_eq]
        ring
    · apply List.map_congr_left
      intro x _
      simp only [Function.comp_apply]
      ring

theorem calculate_ttc_eq_ttc_spec (h : List TrackSample) :
    calculate_ttc h = ttc_spec h := by
  simp only [calculate_ttc, ttc_spec]
  rcases lt_or_le h.length 3 with hlen | hlen
  · rw [if_pos hlen, if_pos hlen]
  · rw [if_neg (not_lt.mpr hlen), if_neg (not_lt.mpr hlen)]
    have hdrop : h.length - min 5 h.length = h.length - 5 := by omega
    rw [hdrop]
    have hreclen : (h.drop (h.length - 5)).length = min 5 h.length := by
      rw [List.length_drop]; omega
    rw [if_neg (by rw [List.length_map, hreclen]; omega :
          ¬ ((h.drop (h.length - 5)).map (·.time)).length < 2)]
    rw [if_neg (by rw [List.length_map, List.length_map, hreclen]; omega :
          ¬ (((h.drop (h.length - 5)).map (·.time)).map
              (fun t => t - ((h.drop (h.length - 5)).map (·.time)).headD 0)).length < 2)]
    rw [lsqSlope_map_sub]
    have hlast : ((h.drop (h.length - 5)).map (·.distance)).getLastD 0 =
        (h.getLast?.map (·.distance)).getD 0 := by
      rw [List.getLastD_eq_getLast?, List.getLast?_map, List.getLast?_drop,
          if_neg (by omega : ¬ h.length ≤ h.length - 5)]
    rw [hlast]
    rcases hsome : h.getLast? with - | s
    · rw [List.getLast?_eq_none_iff] at hsome
      subst hsome
      simp at hlen
    · rfl

/-- C3: `calculate_ttc` agrees with the claimed description (most-recent
distance over the absolute linear-fit slope of distance against time on
the last up-to-5 samples, infinite when the slope is ≥ −0.1 or fewer than
3 samples are held), and the `detect_encounters` step evaluates danger
only once a track holds at least `MIN_TRACK_FRAMES = 5` samples: with a
shorter history the step changes none of the danger fields. -/
theorem calculate_ttc_matches_spec
    (width height : ℚ) (st : TrackState) (s : TrackSample)
    (hshort : (st.history ++ [s]).length < MIN_TRACK_FRAMES) :
    (∀ hist : List TrackSample, calculate_ttc hist = ttc_spec hist) ∧
    ((trackStep width height st s).is_dangerous = st.is_dangerous ∧
     (trackStep width height st s).max_danger_score = st.max_danger_score ∧
     (trackStep width height st s).peak_time = st.peak_time ∧
     (trackStep width height st s).peak_distance = st.peak_distance) := by
  refine ⟨calculate_ttc_eq_ttc_spec, ?_⟩
  simp only [trackStep]
  rw [if_pos hshort]
  exact ⟨rfl, rfl, rfl, rfl⟩

/-- Witness for the C3 theorem: a 3-sample history approaching at 1 m/s
(distances 10, 9, 8 at times 0, 1, 2) has TTC 8 s under both definitions,
and a fresh track's first sample leaves the danger fields untouched. -/
theorem calculate_ttc_matches_spec_witness :
    ((initTrackState.history ++ ([⟨0, 50, 0, 0⟩] : List TrackSample)).length <
      MIN_TRACK_FRAMES) ∧
    calculate_ttc [⟨0, 10, 0, 0⟩, ⟨1, 9, 0, 0⟩, ⟨2, 8, 0, 0⟩] =
      ttc_spec [⟨0, 10, 0, 0⟩, ⟨1, 9, 0, 0⟩, ⟨2, 8, 0, 0⟩] ∧
    calculate_ttc [⟨0, 10, 0, 0⟩, ⟨1, 9, 0, 0⟩, ⟨2, 8, 0, 0⟩] = some 8 ∧
    (trackStep 100 100 initTrackState ⟨0, 50, 0, 0⟩).is_dangerous =
      initTrackState.is_dangerous := by
  have h := calculate_ttc_matches_spec 100 100 initTrackState ⟨0, 50, 0, 0⟩
    (by simp [initTrackState, MIN_TRACK_FRAMES])
  refine ⟨by simp [initTrackState, MIN_TRACK_FRAMES], h.1 _, ?_, h.2.1⟩
  norm_num [calculate_ttc, lsqSlope, listMean]

theorem trackStep_not_dangerous_of_far (width height : ℚ) (st : TrackState)
    (s : TrackSample) (hfar : s.distance = 50) (hst : st.is_dangerous = false) :
    (trackStep width height st s).is_dangerous = false := by
  simp only [trackStep]
  split_ifs with h1 h2 h3
  · exact hst
  · exfalso
    have hclose := h2.1
    rw [hfar] at hclose
    norm_num [DANGEROUS_DISTANCE_M] at hclose
  · exact hst
  · exact hst

theorem foldl_trackStep_far (width height : ℚ) :
    ∀ (samples : List TrackSample) (st : TrackState),
      (∀ x ∈ samples, x.distance = 50) → st.is_dangerous = false →
      (samples.foldl (trackStep width height) st).is_dangerous = false := by
  intro samples
  induction samples with
  | nil => intro st _ h; exact h
  | cons a t ih =>
    intro st hall hst
    simp only [List.foldl_cons]
    exact ih _ (fun x hx => hall x (List.mem_cons_of_mem a hx))
      (trackStep_not_dangerous_of_far width height st a
        (hall a (List.mem_cons_self a t)) hst)

/-- C2: a `detect_encounters` track is (newly) classified dangerous at a
sample only when its distance is below the 15 m threshold, the box
center lies in the middle 30–70 % of the frame width, TTC is below 4 s
or the distance is below the 8 m critical threshold, and the track is
not lateral; and a track whose distance stays at 50 m is never marked
dangerous. -/
theorem detect_encounters_danger_criteria
    (width height : ℚ) (st : TrackState) (s : TrackSample)
    (samples : List TrackSample) (hall : ∀ x ∈ samples, x.distance = 50) :
    ((trackStep width height st s).is_dangerous = true →
      st.is_dangerous = true ∨
        (s.distance < DANGEROUS_DISTANCE_M ∧
         (width * (3/10) < s.center_x ∧ s.center_x < width * (7/10)) ∧
         (ttcBelow (calculate_ttc (st.history ++ [s])) TTC_THRESHOLD_SEC ∨
            s.distance < CRITICAL_DISTANCE_M) ∧
         is_lateral_movement width (st.history ++ [s]) = false)) ∧
    (runTrack width height samples).is_dangerous = false := by
  constructor
  · simp only [trackStep]
    split_ifs with h1 h2 h3
    · intro h; exact Or.inl h
    · intro _; exact Or.inr h2
    · intro h; exact Or.inl h
    · intro h; exact Or.inl h
  · exact foldl_trackStep_far width height samples initTrackState hall rfl

/-- Witness for the C2 theorem: six samples of a track parked 50 m ahead
never mark it dangerous. -/
theorem detect_encounters_danger_criteria_witness :
    (∀ x ∈ List.replicate 6 (⟨0, 50, 50, 10⟩ : TrackSample), x.distance = 50) ∧
    (runTrack 100 100 (List.replicate 6 ⟨0, 50, 50, 10⟩)).is_dangerous = false := by
  have hall : ∀ x ∈ List.replicate 6 (⟨0, 50, 50, 10⟩ : TrackSample),
      x.distance = 50 := by
    intro x hx
    rw [List.eq_of_mem_replicate hx]
  exact ⟨hall,
    (detect_encounters_danger_criteria 100 100 initTrackState ⟨0, 50, 50, 10⟩
      (List.replicate 6 ⟨0, 50, 50, 10⟩) hall).2⟩

/-! ## Average speed (`main_v2.py`, `calculate_average_speed`)

The per-frame flow field is abstracted as the list of its flow-vector
magnitudes; the video becomes the list of those per-sampled-frame
magnitude lists. -/

/-- Linear interpolation step of `np.percentile` on an already sorted
list, at fractional rank `h`. -/
def percInterp (s : List ℚ) (h : ℚ) : ℚ :=
  let i := Int.toNat ⌊h⌋
  s.getD i 0 + (h - (⌊h⌋ : ℚ)) * (s.getD (i + 1) 0 - s.getD i 0)

/-- `np.percentile(xs, p)` with the default linear interpolation. -/
def npPercentile (xs : List ℚ) (p : ℚ) : ℚ :=
  let s := List.insertionSort (· ≤ ·) xs
  if s.length = 0 then 0
  else percInterp s ((p / 100) * ((s.length : ℚ) - 1))

/-- `min_speed = 0.0` (km/h). -/
def MIN_SPEED : ℚ := 0

/-- `max_speed = 150.0` (km/h). -/
def MAX_SPEED : ℚ := 150

/-- One loop iteration of `calculate_average_speed`: 75th percentile of
the strictly positive flow magnitudes, converted from pixels/frame to
km/h, clipped to [0, 150]; `none` when no positive magnitude exists
(then the source appends nothing). -/
def frameSpeedSample (meters_per_pixel fps sample_rate : ℚ)
    (magnitudes : List ℚ) : Option ℚ :=
  let valid_flows := magnitudes.filter (fun m => 0 < m)
  if valid_flows.length = 0 then none
  else
    let flow_magnitude := npPercentile valid_flows 75
    let speed_mps := flow_magnitude * meters_per_pixel * (fps / sample_rate)
    let speed_kmph := speed_mps * (18/5)
    some (npClip speed_kmph MIN_SPEED MAX_SPEED)

/-- The tail of `calculate_average_speed`: IQR outlier rejection with
bounds clamped to `[min_speed, max_speed]`, falling back to all samples
when the filter empties, then `np.mean`. -/
def aggregateSpeeds (speeds : List ℚ) : ℚ :=
  if speeds.length = 0 then 0
  else
    let q1 := npPercentile speeds 25
    let q3 := npPercentile speeds 75
    let iqr := q3 - q1
    let lower_bound := max MIN_SPEED (q1 - (3/2) * iqr)
    let upper_bound := min MAX_SPEED (q3 + (3/2) * iqr)
    let filtered := speeds.filter (fun s => lower_bound ≤ s ∧ s ≤ upper_bound)
    let final := if filtered.length = 0 then speeds else filtered
    listMean final

/-- `calculate_average_speed`, with the video abstracted as its
per-sampled-frame flow-magnitude lists. -/
def calculate_average_speed (meters_per_pixel fps sample_rate : ℚ)
    (frames : List (List ℚ)) : ℚ :=
  aggregateSpeeds
    (frames.filterMap (frameSpeedSample meters_per_pixel fps sample_rate))

theorem listMean_bounds {xs : List ℚ} {a b : ℚ} (hne : xs ≠ [])
    (hb : ∀ x ∈ xs, a ≤ x ∧ x ≤ b) :
    a ≤ listMean xs ∧ listMean xs ≤ b := by
  have hlen : 0 < xs.length := List.length_pos.mpr hne
  have hlenq : (0:ℚ) < xs.length := by exact_mod_cast hlen
  have hub : xs.sum ≤ xs.length • b :=
    List.sum_le_card_nsmul xs b (fun x hx => (hb x hx).2)
  have hlb : xs.length • a ≤ xs.sum :=
    List.card_nsmul_le_sum xs a (fun x hx => (hb x hx).1)
  rw [nsmul_eq_mul] at hub hlb
  unfold listMean
  constructor
  · rw [le_div_iff₀ hlenq]; linarith
  · rw [div_le_iff₀ hlenq]; linarith

theorem sorted_getD_le {s : List ℚ} (hs : s.Sorted (· ≤ ·)) {a b : ℕ}
    (hab : a ≤ b) (hb : b < s.length) : s.getD a 0 ≤ s.getD b 0 := by
  have ha : a < s.length := lt_of_le_of_lt hab hb
  rw [List.getD_eq_getElem s 0 ha, List.getD_eq_getElem s 0 hb]
  have := hs.rel_get_of_le (a := ⟨a, ha⟩) (b := ⟨b, hb⟩) hab
  simpa using this

theorem percInterp_lb {s : List ℚ} (hs : s.Sorted (· ≤ ·)) {h : ℚ}
    (h0 : 0 ≤ h) (h1 : h ≤ (s.length : ℚ) - 1) :
    s.getD (Int.toNat ⌊h⌋) 0 ≤ percInterp s h := by
  simp only [percInterp]
  rcases eq_or_lt_of_le (Int.floor_le h) with heq | hlt
  · have hf0 : h - (⌊h⌋ : ℚ) = 0 := by linarith
    rw [hf0]
    simp
  · have hfrac : 0 < h - (⌊h⌋ : ℚ) := by linarith
    have hfl : (0 : ℤ) ≤ ⌊h⌋ := Int.floor_nonneg.mpr h0
    have hidx : ⌊h⌋ < (s.length : ℤ) - 1 := by
      have hq : (⌊h⌋ : ℚ) < ((s.length : ℤ) : ℚ) - 1 := by push_cast; linarith
      have hq2 : (⌊h⌋ : ℚ) < (((s.length : ℤ) - 1 : ℤ) : ℚ) := by push_cast; linarith
      exact_mod_cast hq2
    have hidxn : Int.toNat ⌊h⌋ + 1 < s.length := by omega
    have hmono : s.getD (Int.toNat ⌊h⌋) 0 ≤ s.getD (Int.toNat ⌊h⌋ + 1) 0 :=
      sorted_getD_le hs (Nat.le_succ _) hidxn
    nlinarith [mul_nonneg (le_of_lt hfrac)
      (sub_nonneg.mpr hmono)]

theorem percInterp_ub {s : List ℚ} (hs : s.Sorted (· ≤ ·)) {h : ℚ}
    (h0 : 0 ≤ h) (h1 : h ≤ (s.length : ℚ) - 1) :
    percInterp s h ≤ s.getD (Int.toNat ⌈h⌉) 0 := by
  simp only [percInterp]
  rcases eq_or_lt_of_le (Int.floor_le h) with heq | hlt
  · have hceq : ⌈h⌉ = ⌊h⌋ := by
      rw [← heq]
      exact Int.ceil_intCast ⌊h⌋
    have hf0 : h - (⌊h⌋ : ℚ) = 0 := by linarith
    rw [hf0, hceq]
    simp
  · have hceil : ⌈h⌉ = ⌊h⌋ + 1 := by
      have hlo : ⌊h⌋ < ⌈h⌉ := by
        have : (⌊h⌋ : ℚ) < (⌈h⌉ : ℚ) := lt_of_lt_of_le hlt (Int.le_ceil h)
        exact_mod_cast this
      have hhi := Int.ceil_le_floor_add_one h
      omega
    have hfrac1 : h - (⌊h⌋ : ℚ) < 1 := by
      have := Int.fract_lt_one h
      unfold Int.fract at this
      linarith
    have hfl : (0 : ℤ) ≤ ⌊h⌋ := Int.floor_nonneg.mpr h0
    have hidx : ⌊h⌋ < (s.length : ℤ) - 1 := by
      have hq2 : (⌊h⌋ : ℚ) < (((s.length : ℤ) - 1 : ℤ) : ℚ) := by push_cast; linarith
      exact_mod_cast hq2
    have hidxn : Int.toNat ⌊h⌋ + 1 < s.length := by omega
    have hceiln : Int.toNat ⌈h⌉ = Int.toNat ⌊h⌋ + 1 := by omega
    rw [hceiln]
    have hmono : s.getD (Int.toNat ⌊h⌋) 0 ≤ s.getD (Int.toNat ⌊h⌋ + 1) 0 :=
      sorted_getD_le hs (Nat.le_succ _) hidxn
    nlinarith [mul_nonneg (sub_nonneg.mpr (le_of_lt hfrac1))
      (sub_nonneg.mpr hmono)]

theorem floor_three_quarters_nat (m : ℕ) :
    ⌊(3 * (m : ℚ)) / 4⌋ = (((3 * m) / 4 : ℕ) : ℤ) := by
  have h := Rat.floor_intCast_div_natCast ((3 * m : ℕ) : ℤ) 4
  rw [Int.ofNat_tdiv]
  push_cast at h ⊢
  exact h

theorem ceil_quarter_le_floor_three_quarters {m : ℕ} (hm : 2 ≤ m) :
    ⌈(m : ℚ) / 4⌉ ≤ ⌊(3 * (m : ℚ)) / 4⌋ := by
  rw [floor_three_quarters_nat, Int.ceil_le, div_le_iff₀ (by norm_num : (0:ℚ) < 4)]
  exact_mod_cast (by omega : m ≤ (3 * m / 4) * 4)

/-- The IQR acceptance window `[q1 − 1.5·iqr, q3 + 1.5·iqr]` always
contains at least one sample, so the outlier-rejection filter of
`calculate_average_speed` can never discard every sample. -/
theorem exists_within_iqr_bounds (xs : List ℚ) (hne : xs ≠ []) :
    ∃ x ∈ xs,
      npPercentile xs 25 - (3/2) * (npPercentile xs 75 - npPercentile xs 25) ≤ x ∧
      x ≤ npPercentile xs 75 + (3/2) * (npPercentile xs 75 - npPercentile xs 25) := by
  have hs : (List.insertionSort (· ≤ ·) xs).Sorted (· ≤ ·) :=
    List.sorted_insertionSort _ xs
  have hperm : (List.insertionSort (· ≤ ·) xs).Perm xs :=
    List.perm_insertionSort _ xs
  set s := List.insertionSort (· ≤ ·) xs with hsdef
  have hslen : s.length = xs.length := hperm.length_eq
  have hlen : 0 < s.length := by
    rw [hslen]
    exact List.length_pos.mpr hne
  have hnz : ¬ (s.length = 0) := Nat.pos_iff_ne_zero.mp hlen
  have hq1 : npPercentile xs 25 = percInterp s ((25/100) * ((s.length : ℚ) - 1)) := by
    simp only [npPercentile, ← hsdef]
    rw [if_neg hnz]
  have hq3 : npPercentile xs 75 = percInterp s ((75/100) * ((s.length : ℚ) - 1)) := by
    simp only [npPercentile, ← hsdef]
    rw [if_neg hnz]
  by_cases h1c : s.length = 1
  · obtain ⟨a, hsa⟩ := List.length_eq_one.mp h1c
    rw [h1c, hsa] at hq1 hq3
    norm_num [percInterp] at hq1 hq3
    refine ⟨a, hperm.subset (by rw [hsa]; exact List.mem_singleton_self a), ?_, ?_⟩
    · rw [hq1, hq3]; linarith
    · rw [hq1, hq3]; linarith
  · by_cases h2c : s.length = 2
    · obtain ⟨a, b, hsab⟩ := List.length_eq_two.mp h2c
      have hab : a ≤ b := by
        rw [hsab] at hs
        simp [List.sorted_cons] at hs
        exact hs
      have hfl1 : ⌊(1/4 : ℚ)⌋ = 0 := by norm_num [Int.floor_eq_iff]
      have hfl3 : ⌊(3/4 : ℚ)⌋ = 0 := by norm_num [Int.floor_eq_iff]
      rw [h2c, hsab] at hq1 hq3
      have e1 : (25/100 : ℚ) * (((2:ℕ) : ℚ) - 1) = 1/4 := by norm_num
      have e3 : (75/100 : ℚ) * (((2:ℕ) : ℚ) - 1) = 3/4 := by norm_num
      rw [e1] at hq1
      rw [e3] at hq3
      simp only [percInterp, hfl1, hfl3] at hq1 hq3
      norm_num at hq1 hq3
      refine ⟨a, hperm.subset (by rw [hsab]; exact List.mem_cons_self a [b]), ?_, ?_⟩
      · rw [hq1, hq3]; linarith
      · rw [hq1, hq3]; linarith
    · -- at least three samples
      have h3le : 3 ≤ s.length := by omega
      obtain ⟨m, hsm⟩ : ∃ m, s.length = m + 1 := ⟨s.length - 1, by omega⟩
      have hm2 : 2 ≤ m := by omega
      have harg1 : (25/100 : ℚ) * ((s.length : ℚ) - 1) = (m : ℚ) / 4 := by
        rw [hsm]; push_cast; ring
      have harg3 : (75/100 : ℚ) * ((s.length : ℚ) - 1) = 3 * (m : ℚ) / 4 := by
        rw [hsm]; push_cast; ring
      rw [harg1] at hq1
      rw [harg3] at hq3
      have hmq : ((m : ℚ)) = (s.length : ℚ) - 1 := by rw [hsm]; push_cast; ring
      have hm0 : (0:ℚ) ≤ (m : ℚ) := by positivity
      have hb1 : (0:ℚ) ≤ (m : ℚ) / 4 := by positivity
      have hb1' : (m : ℚ) / 4 ≤ (s.length : ℚ) - 1 := by rw [← hmq]; linarith
      have hb3 : (0:ℚ) ≤ 3 * (m : ℚ) / 4 := by positivity
      have hb3' : 3 * (m : ℚ) / 4 ≤ (s.length : ℚ) - 1 := by rw [← hmq]; linarith
      have hx1 : percInterp s ((m : ℚ) / 4) ≤ s.getD (Int.toNat ⌈(m : ℚ) / 4⌉) 0 :=
        percInterp_ub hs hb1 hb1'
      have hx3 : s.getD (Int.toNat ⌊3 * (m : ℚ) / 4⌋) 0 ≤ percInterp s (3 * (m : ℚ) / 4) :=
        percInterp_lb hs hb3 hb3'
      have hj13 : Int.toNat ⌈(m : ℚ) / 4⌉ ≤ Int.toNat ⌊3 * (m : ℚ) / 4⌋ :=
        Int.toNat_le_toNat (ceil_quarter_le_floor_three_quarters hm2)
      have hj3m : Int.toNat ⌊3 * (m : ℚ) / 4⌋ < s.length := by
        have := floor_three_quarters_nat m
        omega
      have hmid : s.getD (Int.toNat ⌈(m : ℚ) / 4⌉) 0 ≤
          s.getD (Int.toNat ⌊3 * (m : ℚ) / 4⌋) 0 :=
        sorted_getD_le hs hj13 hj3m
      have hj1len : Int.toNat ⌈(m : ℚ) / 4⌉ < s.length := lt_of_le_of_lt hj13 hj3m
      refine ⟨s.getD (Int.toNat ⌈(m : ℚ) / 4⌉) 0, ?_, ?_, ?_⟩
      · apply hperm.subset
        rw [List.getD_eq_getElem s 0 hj1len]
        exact List.getElem_mem hj1len
      · rw [hq1, hq3]; linarith
      · rw [hq1, hq3]; linarith

/-- The C5 claim's IQR outlier rejection, written from the spec's words:
keep exactly the samples within `[q1 − 1.5·iqr, q3 + 1.5·iqr]` (without
the source's extra clamping of the bounds to `[0, 150]`). -/
def iqrFilter (speeds : List ℚ) : List ℚ :=
  speeds.filter (fun v =>
    npPercentile speeds 25 -
        (3/2) * (npPercentile speeds 75 - npPercentile speeds 25) ≤ v ∧
      v ≤ npPercentile speeds 75 +
        (3/2) * (npPercentile speeds 75 - npPercentile speeds 25))

theorem frameSpeedSample_bounds {mpp fps sr v : ℚ} {mags : List ℚ}
    (h : frameSpeedSample mpp fps sr mags = some v) : 0 ≤ v ∧ v ≤ 150 := by
  simp only [frameSpeedSample] at h
  split_ifs at h with hc
  obtain rfl := Option.some.inj h
  have := npClip_bounds (npPercentile (mags.filter (fun m => 0 < m)) 75 * mpp *
    (fps / sr) * (18/5)) MIN_SPEED MAX_SPEED (by norm_num [MIN_SPEED, MAX_SPEED])
  simpa [MIN_SPEED, MAX_SPEED] using this

theorem aggregateSpeeds_eq_iqrFilter (speeds : List ℚ) (hne : speeds ≠ [])
    (hb : ∀ v ∈ speeds, 0 ≤ v ∧ v ≤ 150) :
    aggregateSpeeds speeds = listMean (iqrFilter speeds) ∧
      iqrFilter speeds ≠ [] := by
  have hnz : ¬ (speeds.length = 0) := by simpa using hne
  have hfeq : speeds.filter (fun v =>
      max MIN_SPEED (npPercentile speeds 25 -
        (3/2) * (npPercentile speeds 75 - npPercentile speeds 25)) ≤ v ∧
      v ≤ min MAX_SPEED (npPercentile speeds 75 +
        (3/2) * (npPercentile speeds 75 - npPercentile speeds 25))) =
      iqrFilter speeds := by
    unfold iqrFilter
    apply List.filter_congr
    intro x hx
    rcases hb x hx with ⟨hx0, hx150⟩
    apply decide_eq_decide.mpr
    constructor
    · rintro ⟨hl, hr⟩
      exact ⟨le_trans (le_max_right _ _) hl, le_trans hr (min_le_right _ _)⟩
    · rintro ⟨hl, hr⟩
      exact ⟨max_le (by simpa [MIN_SPEED] using hx0) hl,
        le_min (by simpa [MAX_SPEED] using hx150) hr⟩
  have hnonempty : iqrFilter speeds ≠ [] := by
    obtain ⟨x, hxmem, hxlb, hxub⟩ := exists_within_iqr_bounds speeds hne
    have : x ∈ iqrFilter speeds := by
      unfold iqrFilter
      exact List.mem_filter.mpr ⟨hxmem, decide_eq_true ⟨hxlb, hxub⟩⟩
    exact List.ne_nil_of_mem this
  refine ⟨?_, hnonempty⟩
  simp only [aggregateSpeeds]
  rw [if_neg hnz, hfeq,
    if_neg (by simpa using hnonempty : ¬ (iqrFilter speeds).length = 0)]

/-- C5: every per-frame speed sample of `calculate_average_speed` is the
75th percentile of the strictly positive flow magnitudes converted to
km/h and clamped to [0, 150]; the returned speed is the mean of the
samples surviving IQR rejection on `[q1 − 1.5·iqr, q3 + 1.5·iqr]` (which
never rejects everything), hence lies in [0, 150]; and 0.0 is returned
when no samples were collected. -/
theorem calculate_average_speed_correct
    (mpp fps sr : ℚ) (frames frames2 : List (List ℚ))
    (hne : frames.filterMap (frameSpeedSample mpp fps sr) ≠ [])
    (hempty : frames2.filterMap (frameSpeedSample mpp fps sr) = []) :
    (∀ v ∈ frames.filterMap (frameSpeedSample mpp fps sr), 0 ≤ v ∧ v ≤ 150) ∧
    calculate_average_speed mpp fps sr frames =
      listMean (iqrFilter (frames.filterMap (frameSpeedSample mpp fps sr))) ∧
    iqrFilter (frames.filterMap (frameSpeedSample mpp fps sr)) ≠ [] ∧
    (0 ≤ calculate_average_speed mpp fps sr frames ∧
      calculate_average_speed mpp fps sr frames ≤ 150) ∧
    calculate_average_speed mpp fps sr frames2 = 0 := by
  have hb : ∀ v ∈ frames.filterMap (frameSpeedSample mpp fps sr),
      0 ≤ v ∧ v ≤ 150 := by
    intro v hv
    obtain ⟨mags, _, hsome⟩ := List.mem_filterMap.mp hv
    exact frameSpeedSample_bounds hsome
  obtain ⟨heq, hfne⟩ := aggregateSpeeds_eq_iqrFilter _ hne hb
  have hcalc : calculate_average_speed mpp fps sr frames =
      listMean (iqrFilter (frames.filterMap (frameSpeedSample mpp fps sr))) := by
    unfold calculate_average_speed
    exact heq
  have hsub : ∀ v ∈ iqrFilter (frames.filterMap (frameSpeedSample mpp fps sr)),
      0 ≤ v ∧ v ≤ 150 := by
    intro v hv
    exact hb v (List.mem_of_mem_filter hv)
  have hbounds := listMean_bounds hfne hsub
  refine ⟨hb, hcalc, hfne, ?_, ?_⟩
  · rw [hcalc]
    exact hbounds
  · unfold calculate_average_speed
    rw [hempty]
    rfl

theorem filter_pos_one : ([1] : List ℚ).filter (fun m => decide (0 < m)) = [1] := by
  rw [List.filter_cons, if_pos (decide_eq_true (by norm_num : (0:ℚ) < 1))]
  rfl

theorem frameSpeedSample_one :
    frameSpeedSample (1/10) 30 6 [1] =
      some (npClip (npPercentile [1] 75 * (1/10) * (30/6) * (18/5))
        MIN_SPEED MAX_SPEED) := by
  simp only [frameSpeedSample, filter_pos_one]
  rw [if_neg (by norm_num)]

/-- Witness for the C5 theorem: one sampled frame whose only flow
magnitude is 1 px/frame, meters-per-pixel 0.1, 30 fps, sample rate 6. -/
theorem calculate_average_speed_correct_witness :
    (([[(1:ℚ)]].filterMap (frameSpeedSample (1/10) 30 6)) ≠ [] ∧
      (([] : List (List ℚ)).filterMap (frameSpeedSample (1/10) 30 6)) = []) ∧
    (0 ≤ calculate_average_speed (1/10) 30 6 [[1]] ∧
      calculate_average_speed (1/10) 30 6 [[1]] ≤ 150) ∧
    calculate_average_speed (1/10) 30 6 [] = 0 := by
  have hne : ([[(1:ℚ)]].filterMap (frameSpeedSample (1/10) 30 6)) ≠ [] := by
    rw [List.filterMap_cons, frameSpeedSample_one]
    simp
  have h := calculate_average_speed_correct (1/10) 30 6 [[1]] [] hne rfl
  exact ⟨⟨hne, rfl⟩, h.2.2.2.1, h.2.2.2.2⟩

/-! ## Frame-sampling steps (`main_v2.py`) -/

/-- `fps = cap.get(cv2.CAP_PROP_FPS) or 30.0`: Python `or` substitutes
30.0 when the reported rate is 0 (falsy). -/
def effectiveFps (reported : ℚ) : ℚ := if reported = 0 then 30 else reported

/-- Python `int(x)`: truncation toward zero. -/
def pyInt (x : ℚ) : ℤ := if 0 ≤ x then ⌊x⌋ else -⌊-x⌋

/-- `step = max(1, int(round(fps / target_hz)))`, as computed by
`run_traffic_signal_summary` (8 Hz), `run_close_encounters` (8 Hz),
`run_turn_count` (10 Hz) and `run_lane_change_count` (8 Hz). -/
def stepOfRound (fps target_hz : ℚ) : ℤ := max 1 (pyRoundInt (fps / target_hz))

/-- `sample_rate = max(1, int(fps / 5))` of `calculate_average_speed`:
truncation, not rounding. -/
def sample_rate_speed (fps : ℚ) : ℤ := max 1 (pyInt (fps / 5))

theorem pyRoundInt_ge_floor (x : ℚ) : ⌊x⌋ ≤ pyRoundInt x := by
  unfold pyRoundInt
  split_ifs <;> omega

/-- Counterexample to C6: at a native rate of 28 fps the speed loop's
sampling step is `int(28/5) = 5`, not `round(28/5) = 6` as the claim
requires of every extractor's sampling loop. -/
theorem sampling_step_claim_counterexample :
    sample_rate_speed 28 = 5 ∧
    max 1 (pyRoundInt ((28:ℚ) / 5)) = 6 ∧
    sample_rate_speed 28 ≠ max 1 (pyRoundInt ((28:ℚ) / 5)) := by
  have hfl : ⌊(28/5 : ℚ)⌋ = 5 := by norm_num [Int.floor_eq_iff]
  have h1 : sample_rate_speed 28 = 5 := by
    unfold sample_rate_speed pyInt
    rw [if_pos (by norm_num)]
    rw [hfl]
    norm_num
  have h2 : pyRoundInt ((28:ℚ) / 5) = 6 := by
    unfold pyRoundInt
    rw [hfl]
    rw [if_neg (by norm_num), if_pos (by norm_num)]
    norm_num
  exact ⟨h1, by rw [h2]; norm_num, by rw [h1, h2]; norm_num⟩

/-- C6 (amended): the loops that derive their step from a target rate
(traffic signal, close encounters, turn count, lane change) satisfy
`step = max(1, round(f_native / f_target))`, hence `step ≥ 1` and
`step = round(f_native / f_target)` whenever `f_target ≤ f_native`; the
speed loop instead truncates, `sample_rate = max(1, int(f_native / 5))`,
which is still ≥ 1; and a reported native rate of 0 is replaced by 30. -/
theorem sampling_steps_amended (f t g : ℚ) (ht : 0 < t) (hg : g ≠ 0) :
    1 ≤ stepOfRound f t ∧
    1 ≤ sample_rate_speed f ∧
    (t ≤ f → stepOfRound f t = pyRoundInt (f / t)) ∧
    effectiveFps 0 = 30 ∧
    effectiveFps g = g := by
  refine ⟨le_max_left 1 _, le_max_left 1 _, ?_, rfl, if_neg hg⟩
  intro htf
  have hdiv : (1:ℚ) ≤ f / t := (le_div_iff₀ ht).mpr (by linarith)
  have hfl : 1 ≤ ⌊f / t⌋ := by
    exact_mod_cast Int.le_floor.mpr (by exact_mod_cast hdiv)
  have := pyRoundInt_ge_floor (f / t)
  unfold stepOfRound
  omega

/-- Witness for the amended C6 theorem: 30 fps at a 5 Hz target. -/
theorem sampling_steps_amended_witness :
    ((0:ℚ) < 5 ∧ (30:ℚ) ≠ 0) ∧
    (1 ≤ stepOfRound 30 5 ∧
      1 ≤ sample_rate_speed 30 ∧
      stepOfRound 30 5 = pyRoundInt ((30:ℚ) / 5) ∧
      effectiveFps 0 = 30 ∧
      effectiveFps 30 = 30) := by
  have h := sampling_steps_amended 30 5 30 (by norm_num) (by norm_num)
  exact ⟨⟨by norm_num, by norm_num⟩,
    h.1, h.2.1, h.2.2.1 (by norm_num), h.2.2.2.1, h.2.2.2.2⟩

/-! ## Bus-lane color extractor (`main_v2.py`, `run_bus_lane_color`)

The per-frame red-coverage test is abstracted as the boolean
`on_bus_lane` flag it produces; the loop body below mirrors the source's
buffer handling and window bookkeeping. -/

/-- `BUFFER_SIZE_FRAMES = 12`. -/
def BUFFER_SIZE_FRAMES : ℕ := 12

/-- Appending to `deque(maxlen=BUFFER_SIZE_FRAMES)`: the oldest entry is
evicted once the buffer is full. -/
def pushBuffer (buf : List Bool) (b : Bool) : List Bool :=
  let buf2 := buf ++ [b]
  if BUFFER_SIZE_FRAMES < buf2.length then
    buf2.drop (buf2.length - BUFFER_SIZE_FRAMES)
  else buf2

/-- One violation window (`{"start_time": ..}` dict, `end_time` present
only once the window closes). -/
structure LaneRange where
  start_time : ℚ
  end_time : Option ℚ
  deriving Repr, DecidableEq

/-- Loop state of `run_bus_lane_color`. -/
structure BusState where
  buffer : List Bool
  violation_active : Bool
  ranges : List LaneRange
  deriving Repr, DecidableEq

def initBusState : BusState := ⟨[], false, []⟩

/-- `if "end_time" not in ranges[-1]: ranges[-1]["end_time"] = end_t`. -/
def closeLastRange (rs : List LaneRange) (t : ℚ) : List LaneRange :=
  match rs.getLast? with
  | none => rs
  | some r =>
    rs.dropLast ++
      [if r.end_time = none then { r with end_time := some t } else r]

/-- One frame of the `run_bus_lane_color` loop: append the flag to the
buffer, open a window when inactive with a full unanimously-true buffer,
close it when active with a full unanimously-false buffer. -/
def busStep (fps : ℚ) (st : BusState) (frame_idx : ℕ) (on_bus_lane : Bool) :
    BusState :=
  let buffer := pushBuffer st.buffer on_bus_lane
  let st1 := { st with buffer := buffer }
  let st2 :=
    if st1.violation_active = false ∧ buffer.length = BUFFER_SIZE_FRAMES ∧
        buffer.all (fun x => x) then
      { st1 with ranges := st1.ranges ++ [⟨(frame_idx : ℚ) / fps, none⟩],
                 violation_active := true }
    else st1
  if st2.violation_active = true ∧ buffer.length = BUFFER_SIZE_FRAMES ∧
      buffer.all (fun x => !x) then
    { st2 with ranges := closeLastRange st2.ranges ((frame_idx : ℚ) / fps),
               violation_active := false }
  else st2

/-- The whole scan, frames numbered from 1 as in the source. -/
def runBusLoop (fps : ℚ) (flags : List Bool) : BusState :=
  (List.enumFrom 1 flags).foldl (fun st p => busStep fps st p.1 p.2) initBusState

theorem closeLastRange_length (rs : List LaneRange) (t : ℚ) :
    (closeLastRange rs t).length = rs.length := by
  unfold closeLastRange
  rcases hlast : rs.getLast? with - | r
  · rfl
  · have hne : rs ≠ [] := by
      intro hcontra
      rw [hcontra] at hlast
      simp at hlast
    simp [List.length_dropLast]
    have := List.length_pos.mpr hne
    omega

theorem pushBuffer_replicate_true (k : ℕ) :
    pushBuffer (List.replicate (min k BUFFER_SIZE_FRAMES) true) true =
      List.replicate (min (k + 1) BUFFER_SIZE_FRAMES) true := by
  simp only [pushBuffer, ← List.replicate_succ', List.length_replicate]
  rcases le_or_lt BUFFER_SIZE_FRAMES k with hk | hk
  · rw [min_eq_right hk, if_pos (Nat.lt_succ_self _), List.drop_replicate]
    congr 1
    have : min (k + 1) BUFFER_SIZE_FRAMES = BUFFER_SIZE_FRAMES :=
      min_eq_right (by omega)
    omega
  · rw [min_eq_left (by omega), if_neg (by
      have : min (k + 1) BUFFER_SIZE_FRAMES = k + 1 := min_eq_left (by omega)
      omega)]
    congr 1
    have : min (k + 1) BUFFER_SIZE_FRAMES = k + 1 := min_eq_left (by omega)
    omega

/-- Closed form of the bus-lane scan on an all-true flag stream: the
buffer fills up, exactly one window opens at frame `BUFFER_SIZE_FRAMES`,
and it never closes. -/
theorem runBusLoop_replicate_true (fps : ℚ) (k : ℕ) :
    runBusLoop fps (List.replicate k true) =
      { buffer := List.replicate (min k BUFFER_SIZE_FRAMES) true,
        violation_active := decide (BUFFER_SIZE_FRAMES ≤ k),
        ranges :=
          if BUFFER_SIZE_FRAMES ≤ k then
            [⟨(BUFFER_SIZE_FRAMES : ℚ) / fps, none⟩]
          else [] } := by
  induction k with
  | zero => simp [runBusLoop, initBusState, BUFFER_SIZE_FRAMES]
  | succ k ih =>
    have hstep : runBusLoop fps (List.replicate (k + 1) true) =
        busStep fps (runBusLoop fps (List.replicate k true)) (1 + k) true := by
      rw [List.replicate_succ']
      unfold runBusLoop
      rw [List.enumFrom_append, List.foldl_append, List.length_replicate]
      simp [List.enumFrom]
    rw [hstep, ih]
    simp only [busStep]
    rw [pushBuffer_replicate_true]
    simp only [BUFFER_SIZE_FRAMES, List.length_replicate, List.all_replicate]
    have hmin0 : ¬((k + 1) ⊓ 12 = 0) := by omega
    simp only [ite_self, Bool.not_true, if_neg hmin0, eq_self_iff_true, and_true,
      Bool.false_eq_true, and_false, if_false]
    rcases le_or_lt 12 k with hk | hk
    · -- already active: nothing opens
      rw [if_pos hk, if_pos (by omega : 12 ≤ k + 1),
        if_neg (by simp [decide_eq_false_iff_not, hk] :
          ¬(decide (12 ≤ k) = false ∧ (k + 1) ⊓ 12 = 12))]
      simp [decide_eq_true_eq, hk, show 12 ≤ k + 1 by omega]
    · rcases Nat.lt_or_ge (k + 1) 12 with hk1 | hk1
      · -- buffer still short: no transition
        rw [if_neg (by omega : ¬ 12 ≤ k), if_neg (by omega : ¬ 12 ≤ k + 1),
          if_neg (by
            rintro ⟨-, hm⟩
            omega)]
        simp [decide_eq_false_iff_not, Nat.not_le.mpr hk, Nat.not_le.mpr hk1]
      · -- the buffer just filled: the window opens now
        rw [if_neg (by omega : ¬ 12 ≤ k), if_pos (by omega : 12 ≤ k + 1),
          if_pos ⟨by simp [Nat.not_le.mpr hk], by omega⟩]
        have hidx : ((1 + k : ℕ) : ℚ) = ((12 : ℕ) : ℚ) := by
          exact_mod_cast congrArg (fun n : ℕ => (n : ℚ)) (by omega : 1 + k = 12)
        push_cast at hidx
        simp [decide_eq_true_eq, show 12 ≤ k + 1 by omega, hidx]

theorem buffer_not_all_true_and_false {l : List Bool}
    (hlen : l.length = BUFFER_SIZE_FRAMES)
    (ht : l.all (fun x => x) = true) (hf : l.all (fun x => !x) = true) :
    False := by
  have hne : l ≠ [] := by
    intro hcontra
    rw [hcontra] at hlen
    simp [BUFFER_SIZE_FRAMES] at hlen
  obtain ⟨x, hx⟩ := List.exists_mem_of_ne_nil _ hne
  have h1 := List.all_eq_true.mp ht x hx
  have h2 := List.all_eq_true.mp hf x hx
  simp at h1 h2
  rw [h1] at h2
  exact absurd h2 (by simp)

/-- C7: in `run_bus_lane_color` a violation window opens exactly when
the scan is inactive and the just-updated fixed-size buffer is full and
unanimously true (so one false entry in the buffer prevents opening),
closes exactly when active with the buffer unanimously false, and an
all-true flag stream of length ≥ `BUFFER_SIZE_FRAMES` opens exactly one
window. -/
theorem run_bus_lane_color_unanimous_buffer
    (fps : ℚ) (st : BusState) (i : ℕ) (b : Bool) (n : ℕ)
    (hn : BUFFER_SIZE_FRAMES ≤ n) :
    ((busStep fps st i b).ranges.length = st.ranges.length +
      (if st.violation_active = false ∧
          (pushBuffer st.buffer b).length = BUFFER_SIZE_FRAMES ∧
          (pushBuffer st.buffer b).all (fun x => x) = true then 1 else 0)) ∧
    (false ∈ pushBuffer st.buffer b →
      (busStep fps st i b).ranges.length = st.ranges.length) ∧
    (st.violation_active = false →
      ((busStep fps st i b).violation_active = true ↔
        ((pushBuffer st.buffer b).length = BUFFER_SIZE_FRAMES ∧
          (pushBuffer st.buffer b).all (fun x => x) = true))) ∧
    (st.violation_active = true →
      ((busStep fps st i b).violation_active = false ↔
        ((pushBuffer st.buffer b).length = BUFFER_SIZE_FRAMES ∧
          (pushBuffer st.buffer b).all (fun x => !x) = true))) ∧
    (runBusLoop fps (List.replicate n true)).ranges.length = 1 := by
  refine ⟨?_, ?_, ?_, ?_, ?_⟩
  · simp only [busStep]
    split_ifs with h1 h2 h2
    · exact (buffer_not_all_true_and_false h1.2.1 h1.2.2 h2.2.2).elim
    · simp
    · simp [closeLastRange_length]
    · simp
  · intro hfalse
    simp only [busStep]
    split_ifs with h1 h2 h2
    · exfalso
      have := List.all_eq_true.mp h1.2.2 false hfalse
      simp at this
    · exfalso
      have := List.all_eq_true.mp h1.2.2 false hfalse
      simp at this
    · simp [closeLastRange_length]
    · simp
  · intro hactive
    simp only [busStep]
    split_ifs with h1 h2 h2
    · exact (buffer_not_all_true_and_false h1.2.1 h1.2.2 h2.2.2).elim
    · simp_all
    · simp_all
    · simp_all
  · intro hactive
    simp only [busStep]
    split_ifs with h1 h2 h2
    · exact (buffer_not_all_true_and_false h1.2.1 h1.2.2 h2.2.2).elim
    · simp_all
    · simp_all
    · simp_all
  · rw [runBusLoop_replicate_true, if_pos hn]
    rfl

/-- Witness for the C7 theorem: a 12-frame all-true stream at 30 fps,
applied to the initial state with a `true` flag. -/
theorem run_bus_lane_color_unanimous_buffer_witness :
    (BUFFER_SIZE_FRAMES ≤ 12) ∧
    (runBusLoop 30 (List.replicate 12 true)).ranges.length = 1 := by
  have h := run_bus_lane_color_unanimous_buffer 30 initBusState 1 true 12
    (le_refl _)
  exact ⟨le_refl _, h.2.2.2.2⟩

/-! ## Close-encounter hysteresis loop (`main_v2.py`,
`run_close_encounters`, lines 372–391)

The fused band score, its first difference, the adaptive enter/exit
thresholds and the peak band's box height are computed per sample from
the detections, flow and rolling baselines; each loop step consumes the
values they take at that sample, so a sample record carries them. -/

/-- `DERIV_MIN = 0.04`. -/
def DERIV_MIN : ℚ := 1/25

/-- `MIN_BOX_H = 0.14`. -/
def MIN_BOX_H : ℚ := 7/50

/-- One processed sample of the close-encounter loop. -/
structure CESample where
  t : ℚ
  fused : ℚ
  d1 : ℚ
  enter_thr : ℚ
  exit_thr : ℚ
  box_h : ℚ
  band : String
  deriving Repr, DecidableEq

/-- The in-progress event dict (no `end_time` key until it closes). -/
structure OpenEvent where
  start_time : ℚ
  peak_time : ℚ
  peak_score : ℚ
  whereLoc : String
  max_box_height_norm : ℚ
  deriving Repr, DecidableEq

/-- Setting `cur_event["end_time"]` and appending. -/
def closeEvent (e : OpenEvent) (end_t : ℚ) : Event :=
  { start_time := e.start_time, end_time := end_t, peak_time := e.peak_time,
    peak_score := e.peak_score, whereLoc := e.whereLoc,
    max_box_height_norm := e.max_box_height_norm }

/-- Hysteresis loop state: `state == "idle"` is `cur = none`. -/
structure CEState where
  cur : Option OpenEvent
  events : List Event
  deriving Repr, DecidableEq

def initCEState : CEState := ⟨none, []⟩

/-- One iteration of the close-encounter hysteresis loop. -/
def ceStep (st : CEState) (s : CESample) : CEState :=
  match st.cur with
  | none =>
    if s.enter_thr ≤ s.fused ∧ DERIV_MIN ≤ s.d1 ∧ MIN_BOX_H * (9/10) ≤ s.box_h then
      { st with cur := some (
        { start_time := pyRound2 s.t, peak_time := pyRound2 s.t,
          peak_score := pyRound3 s.fused, whereLoc := s.band,
          max_box_height_norm := pyRound3 s.box_h : OpenEvent }) }
    else st
  | some ev =>
    let ev1 :=
      if ev.peak_score < s.fused then
        { ev with peak_score := pyRound3 s.fused, peak_time := pyRound2 s.t,
                  whereLoc := s.band, max_box_height_norm := pyRound3 s.box_h }
      else ev
    if s.fused ≤ s.exit_thr then
      { cur := none, events := st.events ++ [closeEvent ev1 (pyRound2 s.t)] }
    else { st with cur := some ev1 }

/-- The whole loop followed by the end-of-stream force close
(`cur_event["end_time"] = round(times[-1], 2)`). -/
def runCE (samples : List CESample) : List Event :=
  let st := samples.foldl ceStep initCEState
  match st.cur, samples.getLast? with
  | some ev, some s => st.events ++ [closeEvent ev (pyRound2 s.t)]
  | _, _ => st.events

/-- The event well-formedness the C8 claim asserts. -/
def eventWF (e : Event) : Prop :=
  e.start_time ≤ e.peak_time ∧ e.peak_time ≤ e.end_time

/-- Loop invariant of the close-encounter hysteresis scan, relative to
the time `t0` of the last processed sample. -/
def ceInv (st : CEState) (t0 : ℚ) : Prop :=
  (∀ e ∈ st.events, eventWF e) ∧
  (∀ e ∈ st.events, e.end_time ≤ pyRound2 t0) ∧
  List.Pairwise (fun a b => a.end_time ≤ b.start_time) st.events ∧
  (∀ ev, st.cur = some ev →
    ev.start_time ≤ ev.peak_time ∧ ev.peak_time ≤ pyRound2 t0 ∧
    ∀ e ∈ st.events, e.end_time ≤ ev.start_time)

theorem ceStep_inv {st : CEState} {t0 : ℚ} (s : CESample)
    (hinv : ceInv st t0) (ht : t0 < s.t) : ceInv (ceStep st s) s.t := by
  obtain ⟨hwf, hend, hpw, hcur⟩ := hinv
  have hr2 : pyRound2 t0 ≤ pyRound2 s.t := pyRound2_mono (le_of_lt ht)
  cases hc : st.cur with
  | none =>
    simp only [ceStep, hc]
    split_ifs with hopen
    · refine ⟨hwf, fun e he => le_trans (hend e he) hr2, hpw, ?_⟩
      intro ev hev
      simp only [Option.some.injEq] at hev
      subst hev
      exact ⟨le_refl _, le_refl _, fun e he => le_trans (hend e he) hr2⟩
    · refine ⟨hwf, fun e he => le_trans (hend e he) hr2, hpw, ?_⟩
      intro ev hev
      rw [hc] at hev
      exact absurd hev (by simp)
  | some ev0 =>
    obtain ⟨hs1, hs2, hs3⟩ := hcur ev0 hc
    simp only [ceStep, hc]
    split_ifs with hclose hup hup
    · -- peak updated, then the event closes at this sample
      refine ⟨?_, ?_, ?_, by intro ev hev; exact absurd hev (by simp)⟩
      · intro e he
        rcases List.mem_append.mp he with hmem | hmem
        · exact hwf e hmem
        · simp only [List.mem_singleton] at hmem
          subst hmem
          exact ⟨le_trans hs1 (le_trans hs2 hr2), le_refl _⟩
      · intro e he
        rcases List.mem_append.mp he with hmem | hmem
        · exact le_trans (hend e hmem) hr2
        · simp only [List.mem_singleton] at hmem
          subst hmem
          exact le_refl _
      · refine List.pairwise_append.mpr ⟨hpw, List.pairwise_singleton _ _, ?_⟩
        intro a ha b hb
        simp only [List.mem_singleton] at hb
        subst hb
        exact hs3 a ha
    · -- no peak update, event closes at this sample
      refine ⟨?_, ?_, ?_, by intro ev hev; exact absurd hev (by simp)⟩
      · intro e he
        rcases List.mem_append.mp he with hmem | hmem
        · exact hwf e hmem
        · simp only [List.mem_singleton] at hmem
          subst hmem
          exact ⟨hs1, le_trans hs2 hr2⟩
      · intro e he
        rcases List.mem_append.mp he with hmem | hmem
        · exact le_trans (hend e hmem) hr2
        · simp only [List.mem_singleton] at hmem
          subst hmem
          exact le_refl _
      · refine List.pairwise_append.mpr ⟨hpw, List.pairwise_singleton _ _, ?_⟩
        intro a ha b hb
        simp only [List.mem_singleton] at hb
        subst hb
        exact hs3 a ha
    · -- peak updated, event remains open
      refine ⟨hwf, fun e he => le_trans (hend e he) hr2, hpw, ?_⟩
      intro ev hev
      simp only [Option.some.injEq] at hev
      subst hev
      exact ⟨le_trans hs1 (le_trans hs2 hr2), le_refl _, hs3⟩
    · -- no peak update, event remains open
      refine ⟨hwf, fun e he => le_trans (hend e he) hr2, hpw, ?_⟩
      intro ev hev
      simp only [Option.some.injEq] at hev
      subst hev
      exact ⟨hs1, le_trans hs2 hr2, hs3⟩

theorem ceFold_inv :
    ∀ (samples : List CESample) (st : CEState) (s0 : CESample),
      List.Chain (fun a b => a.t < b.t) s0 samples → ceInv st s0.t →
      ceInv (samples.foldl ceStep st) ((samples.getLastD s0).t) := by
  intro samples
  induction samples with
  | nil => intro st s0 _ hinv; exact hinv
  | cons s rest ih =>
    intro st s0 hchain hinv
    obtain ⟨hlt, hchain'⟩ := List.chain_cons.mp hchain
    rw [List.foldl_cons, List.getLastD_cons]
    exact ih (ceStep st s) s hchain' (ceStep_inv s hinv hlt)

theorem runCE_wf_pairwise (samples : List CESample)
    (hmono : samples.Chain' (fun a b => a.t < b.t)) :
    (∀ e ∈ runCE samples, eventWF e) ∧
    List.Pairwise (fun a b => a.end_time ≤ b.start_time) (runCE samples) := by
  cases samples with
  | nil => simp [runCE, initCEState]
  | cons s rest =>
    have hchain : List.Chain (fun a b => a.t < b.t)
        { s with t := s.t - 1 } (s :: rest) :=
      List.chain_cons.mpr ⟨by simp, hmono⟩
    have hinv0 : ceInv initCEState ({ s with t := s.t - 1 } : CESample).t := by
      refine ⟨by simp [initCEState], by simp [initCEState],
        by simp [initCEState], ?_⟩
      intro ev hev
      simp [initCEState] at hev
    have hfold := ceFold_inv (s :: rest) initCEState _ hchain hinv0
    obtain ⟨hwf, hend, hpw, hcur⟩ := hfold
    cases hc : (List.foldl ceStep initCEState (s :: rest)).cur with
    | none =>
      have hrun : runCE (s :: rest) =
          (List.foldl ceStep initCEState (s :: rest)).events := by
        simp only [runCE, hc]
      rw [hrun]
      exact ⟨hwf, hpw⟩
    | some ev =>
      have hne : (s :: rest) ≠ [] := List.cons_ne_nil s rest
      have hglx : (s :: rest).getLast? =
          some ((s :: rest).getLastD { s with t := s.t - 1 }) := by
        rw [List.getLastD_eq_getLast?]
        cases hg : (s :: rest).getLast? with
        | none =>
          rw [List.getLast?_eq_none_iff] at hg
          exact absurd hg hne
        | some x => rfl
      have hrun : runCE (s :: rest) =
          (List.foldl ceStep initCEState (s :: rest)).events ++
            [closeEvent ev
              (pyRound2 ((s :: rest).getLastD { s with t := s.t - 1 }).t)] := by
        simp only [runCE, hc, hglx]
      rw [hrun]
      obtain ⟨hp1, hp2, hp3⟩ := hcur ev hc
      constructor
      · intro e he
        rcases List.mem_append.mp he with hmem | hmem
        · exact hwf e hmem
        · simp only [List.mem_singleton] at hmem
          subst hmem
          exact ⟨hp1, hp2⟩
      · refine List.pairwise_append.mpr ⟨hpw, List.pairwise_singleton _ _, ?_⟩
        intro a ha b hb
        simp only [List.mem_singleton] at hb
        subst hb
        exact hp3 a ha

theorem mergeInto_wf {cur e : Event} (hcur : eventWF cur) (he : eventWF e)
    (hord : cur.end_time ≤ e.start_time) : eventWF (mergeInto cur e) := by
  obtain ⟨hc1, hc2⟩ := hcur
  obtain ⟨he1, he2⟩ := he
  unfold mergeInto eventWF
  split_ifs with hp
  · exact ⟨le_trans hc1 (le_trans hc2 (le_trans hord he1)), he2⟩
  · exact ⟨hc1, le_trans hc2 (le_trans hord (le_trans he1 he2))⟩

theorem mergeAux_wf :
    ∀ (rest : List Event) (cur : Event),
      eventWF cur → (∀ e ∈ rest, eventWF e) →
      List.Pairwise (fun a b => a.end_time ≤ b.start_time) (cur :: rest) →
      ∀ e ∈ mergeAux cur rest, eventWF e := by
  intro rest
  induction rest with
  | nil =>
    intro cur hcur _ _ e he
    simp only [mergeAux, List.mem_singleton] at he
    subst he
    exact hcur
  | cons x rest' ih =>
    intro cur hcur hrest hpw e he
    rw [List.pairwise_cons] at hpw
    obtain ⟨hcur_rel, hpw'⟩ := hpw
    unfold mergeAux at he
    split_ifs at he with hgap
    · refine ih (mergeInto cur x)
        (mergeInto_wf hcur (hrest x (List.mem_cons_self x rest'))
          (hcur_rel x (List.mem_cons_self x rest')))
        (fun e' he' => hrest e' (List.mem_cons_of_mem x he')) ?_ e he
      rw [List.pairwise_cons]
      rw [List.pairwise_cons] at hpw'
      refine ⟨?_, hpw'.2⟩
      intro a ha
      rw [mergeInto_end_time]
      exact hpw'.1 a ha
    · rcases List.mem_cons.mp he with rfl | he'
      · exact hcur
      · exact ih x (hrest x (List.mem_cons_self x rest'))
          (fun e' he' => hrest e' (List.mem_cons_of_mem x he')) hpw' e he'

theorem finalizeCE_wf (l : List Event) (hwf : ∀ e ∈ l, eventWF e)
    (hpw : List.Pairwise (fun a b => a.end_time ≤ b.start_time) l) :
    ∀ e ∈ finalizeCE l, eventWF e := by
  unfold finalizeCE
  have hwf' : ∀ e ∈ filterMinDuration l, eventWF e := by
    intro e he
    exact hwf e (List.mem_of_mem_filter he)
  have hpw' : List.Pairwise (fun a b => a.end_time ≤ b.start_time)
      (filterMinDuration l) := List.Pairwise.filter _ hpw
  cases hfd : filterMinDuration l with
  | nil => simp [mergeEvents]
  | cons f rest =>
    rw [hfd] at hwf' hpw'
    unfold mergeEvents
    exact mergeAux_wf rest f (hwf' f (List.mem_cons_self f rest))
      (fun e' he' => hwf' e' (List.mem_cons_of_mem f he')) hpw'

/-! Per-track bookkeeping facts used for the enhanced detector's
finalized encounters. -/

theorem trackStep_history (width height : ℚ) (st : TrackState)
    (s : TrackSample) :
    (trackStep width height st s).history = st.history ++ [s] := by
  simp only [trackStep]
  split_ifs <;> rfl

theorem trackStep_peak (width height : ℚ) (st : TrackState) (s : TrackSample) :
    (trackStep width height st s).peak_time = st.peak_time ∨
    (trackStep width height st s).peak_time = some s.time := by
  simp only [trackStep]
  split_ifs <;> simp

theorem runTrack_fold_history (width height : ℚ) :
    ∀ (samples : List TrackSample) (st : TrackState),
      (samples.foldl (trackStep width height) st).history =
        st.history ++ samples := by
  intro samples
  induction samples with
  | nil => intro st; simp
  | cons a t ih =>
    intro st
    rw [List.foldl_cons, ih, trackStep_history]
    simp

theorem runTrack_fold_peak (width height : ℚ) :
    ∀ (samples : List TrackSample) (st : TrackState),
      (∀ p, st.peak_time = some p → ∃ x ∈ st.history, x.time = p) →
      ∀ p, (samples.foldl (trackStep width height) st).peak_time = some p →
        ∃ x ∈ (samples.foldl (trackStep width height) st).history, x.time = p := by
  intro samples
  induction samples with
  | nil => intro st h p hp; exact h p hp
  | cons a t ih =>
    intro st h p hp
    refine ih (trackStep width height st a) ?_ p hp
    intro q hq
    rcases trackStep_peak width height st a with hsame | hnew
    · rw [hsame] at hq
      obtain ⟨x, hx, hxt⟩ := h q hq
      exact ⟨x, by rw [trackStep_history]; exact List.mem_append_left _ hx, hxt⟩
    · rw [hnew] at hq
      obtain rfl := Option.some.inj hq
      refine ⟨a, ?_, rfl⟩
      rw [trackStep_history]
      exact List.mem_append_right _ (List.mem_singleton_self a)

theorem chain_time_head_le {l : List TrackSample}
    (hc : l.Chain' (fun a b => a.time < b.time)) (d : TrackSample) :
    ∀ x ∈ l, (l.headD d).time ≤ x.time := by
  haveI : IsTrans TrackSample (fun a b => a.time < b.time) :=
    ⟨fun a b c hab hbc => lt_trans hab hbc⟩
  have hpw := (List.chain'_iff_pairwise).mp hc
  intro x hx
  cases l with
  | nil => exact absurd hx (by simp)
  | cons a t =>
    rcases List.mem_cons.mp hx with rfl | hx'
    · exact le_refl _
    · exact le_of_lt ((List.pairwise_cons.mp hpw).1 x hx')

theorem chain_time_le_last :
    ∀ (l : List TrackSample), l.Chain' (fun a b => a.time < b.time) →
      ∀ (d x : TrackSample), x ∈ l → x.time ≤ (l.getLastD d).time := by
  intro l
  induction l with
  | nil => intro _ d x hx; exact absurd hx (by simp)
  | cons a t ih =>
    intro hc d x hx
    rw [List.getLastD_cons]
    have hct := hc.tail
    rcases List.mem_cons.mp hx with rfl | hx'
    · cases t with
      | nil => simp
      | cons b t' =>
        have hab : x.time < b.time := (List.chain'_cons.mp hc).1
        exact le_of_lt (lt_of_lt_of_le hab
          (ih hct x b (List.mem_cons_self b t')))
    · exact ih hct a x hx'

theorem encounterOf_wf (width height : ℚ) (tsamples : List TrackSample)
    (htmono : tsamples.Chain' (fun a b => a.time < b.time))
    (e : Event)
    (he : encounterOf width height (runTrack width height tsamples) = some e) :
    eventWF e := by
  set st := runTrack width height tsamples with hst
  have hhist : st.history = tsamples := by
    rw [hst]
    unfold runTrack
    rw [runTrack_fold_history]
    simp [initTrackState]
  have hpeak : ∀ p, st.peak_time = some p → ∃ x ∈ st.history, x.time = p := by
    rw [hst]
    unfold runTrack
    intro p hp
    exact runTrack_fold_peak width height tsamples initTrackState
      (by intro q hq; simp [initTrackState] at hq) p hp
  have hchain : st.history.Chain' (fun a b => a.time < b.time) := by
    rw [hhist]
    exact htmono
  unfold encounterOf at he
  split_ifs at he with h1 h2
  obtain rfl := Option.some.inj he
  have hne : st.history ≠ [] := by
    intro hcontra
    rw [hcontra] at h2
    simp [MIN_TRACK_FRAMES] at h2
  have hhmem : st.history.headD ⟨0, 0, 0, 0⟩ ∈ st.history := by
    cases hh : st.history with
    | nil => exact absurd hh hne
    | cons a t => simp [hh]
  constructor
  · apply pyRound2_mono
    cases hp : st.peak_time with
    | none => simp [hp]
    | some p =>
      simp only [hp, Option.getD_some]
      obtain ⟨x, hxmem, hxt⟩ := hpeak p hp
      rw [← hxt]
      exact chain_time_head_le hchain _ x hxmem
  · apply pyRound2_mono
    cases hp : st.peak_time with
    | none =>
      simp only [hp, Option.getD_none]
      exact chain_time_le_last _ hchain _ _ hhmem
    | some p =>
      simp only [hp, Option.getD_some]
      obtain ⟨x, hxmem, hxt⟩ := hpeak p hp
      rw [← hxt]
      exact chain_time_le_last _ hchain _ x hxmem

/-- C8: every finalized event of the close-encounter pipelines satisfies
`start_time ≤ peak_time ≤ end_time`: the events emitted by the
`run_close_encounters` hysteresis loop (force-closed ones included), the
events surviving its finalize/merge pass, and the encounters finalized
from a dangerous track by the enhanced detector. -/
theorem events_time_ordered
    (samples : List CESample) (hmono : samples.Chain' (fun a b => a.t < b.t))
    (width height : ℚ) (tsamples : List TrackSample)
    (htmono : tsamples.Chain' (fun a b => a.time < b.time)) :
    (∀ e ∈ runCE samples, eventWF e) ∧
    (∀ e ∈ finalizeCE (runCE samples), eventWF e) ∧
    (∀ e, encounterOf width height (runTrack width height tsamples) = some e →
      eventWF e) := by
  obtain ⟨hwf, hpw⟩ := runCE_wf_pairwise samples hmono
  exact ⟨hwf, finalizeCE_wf _ hwf hpw,
    fun e he => encounterOf_wf width height tsamples htmono e he⟩

/-- Witness for the C8 theorem: a two-sample score sequence that opens
an event at t = 1 and closes it at t = 2, and a two-sample approaching
track. -/
theorem events_time_ordered_witness :
    (List.Chain' (fun a b => a.t < b.t)
        ([⟨1, 1, 1, 0, 0, 1, "center"⟩,
          ⟨2, 0, 0, 0, 0, 0, "center"⟩] : List CESample) ∧
      List.Chain' (fun a b => a.time < b.time)
        ([⟨0, 10, 0, 0⟩, ⟨1, 9, 0, 0⟩] : List TrackSample)) ∧
    (∀ e ∈ runCE [⟨1, 1, 1, 0, 0, 1, "center"⟩, ⟨2, 0, 0, 0, 0, 0, "center"⟩],
      eventWF e) ∧
    (∀ e ∈ finalizeCE
        (runCE [⟨1, 1, 1, 0, 0, 1, "center"⟩, ⟨2, 0, 0, 0, 0, 0, "center"⟩]),
      eventWF e) := by
  have h1 : List.Chain' (fun a b => a.t < b.t)
      ([⟨1, 1, 1, 0, 0, 1, "center"⟩,
        ⟨2, 0, 0, 0, 0, 0, "center"⟩] : List CESample) :=
    List.chain'_cons.mpr ⟨by norm_num, List.chain'_singleton _⟩
  have h2 : List.Chain' (fun a b => a.time < b.time)
      ([⟨0, 10, 0, 0⟩, ⟨1, 9, 0, 0⟩] : List TrackSample) :=
    List.chain'_cons.mpr ⟨by norm_num, List.chain'_singleton _⟩
  have h := events_time_ordered _ h1 100 100 _ h2
  exact ⟨⟨h1, h2⟩, h.1, h.2.1⟩

/-! ## Traffic-signal summary (`main_v2.py`, `run_traffic_signal_summary`
and `_postprocess_smoother`) -/

/-- A frame of the traffic-signal scan (its pixel content is irrelevant:
the loop computes nothing from it). -/
structure TSFrame where
  idx : ℕ
  deriving Repr, DecidableEq

/-- A traffic-violation window. -/
structure TSWindow where
  start_time : ℚ
  end_time : ℚ
  deriving Repr, DecidableEq

/-- The result dict: optional fields render keys that may be absent
before `_postprocess_smoother` runs. -/
structure TSOut where
  violations : List TSWindow
  traffic_violation_windows : Option (List TSWindow)
  violation : Option Bool
  deriving Repr, DecidableEq

/-- `_postprocess_smoother`: `setdefault("traffic_violation_windows",
[])` then `violation = len(windows) > 0`. -/
def postprocess_smoother (out : TSOut) : TSOut :=
  let windows := out.traffic_violation_windows.getD []
  { out with traffic_violation_windows := some windows,
             violation := some (decide (0 < windows.length)) }

/-- The frame scan of `run_traffic_signal_summary`: it reads frames for
pacing but never appends a violation. -/
def ts_scan (frames : List TSFrame) : List TSWindow :=
  frames.foldl (fun acc _ => acc) []

/-- `run_traffic_signal_summary` on an opened video, abstracted as its
frame list. -/
def run_traffic_signal_summary (frames : List TSFrame) : TSOut :=
  postprocess_smoother
    { violations := ts_scan frames, traffic_violation_windows := none,
      violation := none }

theorem ts_scan_nil (frames : List TSFrame) : ts_scan frames = [] := by
  unfold ts_scan
  induction frames with
  | nil => rfl
  | cons a t ih => exact ih

/-- C10: `run_traffic_signal_summary` can never report a violation: its
`violations` and `traffic_violation_windows` lists are empty and its
`violation` flag false on every video, and `postprocess_smoother` sets
`violation` true only when the windows list is nonempty. -/
theorem run_traffic_signal_summary_never_violation (frames : List TSFrame)
    (out : TSOut) :
    (run_traffic_signal_summary frames).violations = [] ∧
    (run_traffic_signal_summary frames).traffic_violation_windows = some [] ∧
    (run_traffic_signal_summary frames).violation = some false ∧
    (postprocess_smoother out).violation =
      some (decide (0 < (out.traffic_violation_windows.getD []).length)) := by
  refine ⟨?_, ?_, ?_, rfl⟩
  · simp [run_traffic_signal_summary, postprocess_smoother, ts_scan_nil]
  · simp [run_traffic_signal_summary, postprocess_smoother]
  · simp [run_traffic_signal_summary, postprocess_smoother]

/-! ## Entry-point error signaling

Each extractor's top-of-function behavior is embedded over an abstract
opened-video handle: `none` renders a path `cv2.VideoCapture` cannot
open (`cap.isOpened()` false), `some r` an opened video whose analysis
produces `r`.  `hasYolo` renders the module-level `_HAS_YOLO` /
`HAS_YOLO` capability flags. -/

structure TurnResult where
  turn_count : ℤ
  left : ℤ
  right : ℤ
  deriving Repr, DecidableEq

structure CEResult where
  event_count : ℕ
  deriving Repr, DecidableEq

structure BusResult where
  violation_detected : Bool
  deriving Repr, DecidableEq

/-- `run_turn_count`: `if not cap.isOpened(): return {"turn_count": 0,
"left": 0, "right": 0}` — it returns, it does not raise. -/
def run_turn_count_entry (opened : Option TurnResult) :
    Except String TurnResult :=
  match opened with
  | none => .ok ⟨0, 0, 0⟩
  | some r => .ok r

/-- `run_lane_change_count`: same degraded return on open failure. -/
def run_lane_change_count_entry (opened : Option TurnResult) :
    Except String TurnResult :=
  match opened with
  | none => .ok ⟨0, 0, 0⟩
  | some r => .ok r

/-- `run_bus_lane_color`: returns `{"violation_detected": False,
"violation_ranges": []}` on open failure. -/
def run_bus_lane_color_entry (opened : Option BusResult) :
    Except String BusResult :=
  match opened with
  | none => .ok ⟨false⟩
  | some r => .ok r

/-- `calculate_average_speed`: returns `0.0` on open failure. -/
def calculate_average_speed_entry (opened : Option ℚ) : Except String ℚ :=
  match opened with
  | none => .ok 0
  | some v => .ok v

/-- `run_traffic_signal_summary`: raises `RuntimeError` on open
failure. -/
def run_traffic_signal_summary_entry (opened : Option TSOut) :
    Except String TSOut :=
  match opened with
  | none => .error "Could not open video"
  | some r => .ok r

/-- `run_close_encounters`: an empty `event_count = 0` result when the
YOLO capability is missing (before any open attempt), a `RuntimeError`
when the video cannot be opened. -/
def run_close_encounters_entry (hasYolo : Bool) (opened : Option CEResult) :
    Except String CEResult :=
  if hasYolo = false then .ok ⟨0⟩
  else
    match opened with
    | none => .error "Could not open video"
    | some r => .ok r

/-- `detect_close_encounters_enhanced`: an empty `event_count = 0`
result when YOLO is unavailable, otherwise the detector constructor
raises `RuntimeError` when the video cannot be opened. -/
def detect_close_encounters_enhanced_entry (hasYolo : Bool)
    (opened : Option CEResult) : Except String CEResult :=
  if hasYolo = false then .ok ⟨0⟩
  else
    match opened with
    | none => .error "Cannot open video"
    | some r => .ok r

/-- Counterexample to C9: `run_turn_count` does not raise a
source-unavailable error when the video cannot be opened — it returns a
zero result. -/
theorem run_turn_count_open_failure_counterexample :
    run_turn_count_entry none = Except.ok ⟨0, 0, 0⟩ ∧
    ∀ err : String, run_turn_count_entry none ≠ Except.error err := by
  refine ⟨rfl, ?_⟩
  intro err h
  simp [run_turn_count_entry] at h

/-- C9 (amended): `run_traffic_signal_summary`, `run_close_encounters`
(with YOLO available) and `detect_close_encounters_enhanced` raise when
the path cannot be opened, while `run_turn_count`,
`run_lane_change_count`, `run_bus_lane_color` and
`calculate_average_speed` return degraded zero/empty results instead;
when the optional YOLO capability is missing, both close-encounter
entry points return a valid empty result with `event_count = 0` rather
than raising. -/
theorem error_signaling_amended (opened : Option CEResult) :
    run_traffic_signal_summary_entry none = Except.error "Could not open video" ∧
    run_close_encounters_entry true none = Except.error "Could not open video" ∧
    detect_close_encounters_enhanced_entry true none =
      Except.error "Cannot open video" ∧
    (run_close_encounters_entry false opened = Except.ok ⟨0⟩ ∧
      (0 : ℕ) = (CEResult.mk 0).event_count) ∧
    detect_close_encounters_enhanced_entry false opened = Except.ok ⟨0⟩ ∧
    run_turn_count_entry none = Except.ok ⟨0, 0, 0⟩ ∧
    run_lane_change_count_entry none = Except.ok ⟨0, 0, 0⟩ ∧
    run_bus_lane_color_entry none = Except.ok ⟨false⟩ ∧
    calculate_average_speed_entry none = Except.ok 0 := by
  exact ⟨rfl, rfl, rfl, ⟨rfl, rfl⟩, rfl, rfl, rfl, rfl, rfl⟩

end DriveGuard
